import Mathlib

/-!
Verification of the multi-dataset sampling and batch-construction pipeline of
`blueglass` (file `custom_dataset_dataloader.py`), against its natural-language
specification.

Shallow embedding conventions:
* Python float arithmetic is modelled exactly over `ℚ` (the formulas of the
  spec are real-arithmetic formulas); the only irrational operation,
  `math.sqrt` in the repeat-factor estimator, is modelled over `ℝ` with
  `Real.sqrt`.
* Python exceptions (IndexError, AssertionError, torch RuntimeError) are
  modelled with `Except String` / `Option`.
* `torch.Tensor` vectors are modelled as `List ℚ` (resp. `List ℝ`), and
  elementwise tensor product as `List.zipWith (· * ·)` — faithful because the
  two operands provably have equal length at every use site.
* External collaborators (detectron2 filter functions, the torch random
  generator) are parameters of the embedding.
-/

set_option maxHeartbeats 1000000

namespace Blueglass

/-! ### Definitions: shallow embedding of the pipeline, spec-side definitions, and concrete inputs -/

/-- One training example ("dataset dict").  `category_ids` models the set
`{ann["category_id"] for ann in d["annotations"]}` (a Python set, hence the
`Nodup`-style handling below via `dedup`); `tag_ids` models the list
`d["pos_category_ids"]`; `hasAnns` models the key test
`"annotations" in d`. -/
structure Record where
  dataset_source : ℕ
  width : ℕ
  height : ℕ
  category_ids : List ℕ
  tag_ids : List ℕ
  hasAnns : Bool
deriving DecidableEq, Repr

/-- The tagging `d["dataset_source"] = source_id` applied to every record of one dataset. -/
def tagSource (sid : ℕ) (rs : List Record) : List Record :=
  rs.map (fun r => { r with dataset_source := sid })

/-- The tagging loop `for source_id, (dataset_name, dicts) in enumerate(...)`:
dataset `k` of the list gets source id `i0 + k` (the merger calls it with
`i0 = 0`). -/
def tagFrom (i0 : ℕ) : List (List Record) → List Record
  | [] => []
  | g :: gs => tagSource i0 g ++ tagFrom (i0 + 1) gs

/-- The merger `get_detection_dataset_dicts_with_source`.  The detectron2 filters
`filter_images_with_only_crowd_annotations` / `filter_images_with_few_keypoints`
are external collaborators, passed as parameters `fc` / `fk`.  Note the source's
filtering loop rebinds only its local loop variable (`dataset_dict = ...`), so
the filtered lists are discarded: the returned value is the plain concatenation
of the tagged inputs. -/
def get_detection_dataset_dicts_with_source
    (fc : List Record → List Record) (fk : ℕ → List Record → List Record)
    (proposal_files : Option Unit)
    (datasets : List (List Record))
    ( filter_empty : Bool) (min_keypoints : ℕ) : Option (List Record) :=
  if datasets.isEmpty then none          -- assert len(dataset_names)
  else if datasets.any (·.isEmpty) then none   -- assert len(dicts) per dataset
  else if proposal_files ≠ none then none      -- assert proposal_files is None
  else
    let tagged := tagFrom 0 datasets
    -- the filtering loop: its results are bound to the loop variable only,
    -- never written back into `dataset_dicts`
    let _discarded := datasets.map (fun ds =>
      let hasInst := match ds with
        | [] => false
        | d :: _ => d.hasAnns
      let ds := if filter_empty && hasInst then fc ds else ds
      let ds := if decide (0 < min_keypoints) && hasInst then fk min_keypoints ds else ds
      ds)
    some tagged

/-- The bump `sizes[i] += 1`, raising IndexError (modelled as `none`) when `i` is out of
range.  (Python negative indices cannot occur: `dataset_source` is a `ℕ`.) -/
def bumpAt (s : List ℕ) (i : ℕ) : Option (List ℕ) :=
  if h : i < s.length then some (s.set i (s.get ⟨i, h⟩ + 1)) else none

/-- The size-counting loop
`sizes = [0]*len(dataset_ratio); for d in dataset_dicts: sizes[d["dataset_source"]] += 1`,
with `k = len(dataset_ratio)`. -/
def computeSizes (dicts : List Record) (k : ℕ) : Option (List ℕ) :=
  dicts.foldl (fun acc d => acc.bind (fun s => bumpAt s d.dataset_source))
    (some (List.replicate k 0))

/-- Python `max(sizes)` — the maximum of a non-empty list of naturals (every
call site has `sizes` non-empty, where `foldr max 0` agrees with `max`). -/
def maxSizes (sizes : List ℕ) : ℕ := sizes.foldr max 0

/-- One per-dataset broadcast constant:
`torch.ones(s) * max(sizes) / s * r / sum(dataset_ratio)` produces `s` copies
of this value.  (`ℚ` division by zero is `0`, but `s = 0` yields the empty
block regardless, matching torch's empty tensor.) -/
def dsWeightConst (sizes : List ℕ) (sumRatio : ℚ) (r : ℚ) (s : ℕ) : ℚ :=
  (maxSizes sizes : ℚ) / (s : ℚ) * r / sumRatio

/-- The vector `dataset_weight = torch.cat([torch.ones(s) * max(sizes)/s * r/sum(ratio)
for (r, s) in zip(dataset_ratio, sizes)])`. -/
def datasetWeightVec (ratio : List ℚ) (sizes : List ℕ) : List ℚ :=
  ((ratio.zip sizes).map
    (fun p => List.replicate p.2 (dsWeightConst sizes ratio.sum p.1 p.2))).flatten

/-- The counter `category_freq[c]` of `_get_class_balance_factor_per_dataset`: the number
of records of the group whose (set of) category ids contains `c`.  The source
builds it by iterating the per-record *set* `{ann["category_id"] for ann}`,
which counts each containing record exactly once. -/
def categoryFreq (ds : List Record) (c : ℕ) : ℕ :=
  (ds.filter (fun r => c ∈ r.category_ids)).length

/-- The method `_get_class_balance_factor_per_dataset` (default exponent `l=1.0`, the only
value ever passed; the float power `freq ** l` is modelled as the natural power
`freq ^ l`).  Each record's factor is
`sum(1.0 / category_freq[c] ** l for c in cat_ids)` over the record's *set* of
category ids (hence `dedup`). -/
def class_balance_factors (ds : List Record) (l : ℕ) : List ℚ :=
  ds.map (fun r =>
    (r.category_ids.dedup.map (fun c => 1 / ((categoryFreq ds c : ℚ) ^ l))).sum)

/-- The class-balance renormalization line
`cas_factor = cas_factor * (s / cas_factor.sum())`. -/
def casRenorm (cf : List ℚ) (s : ℕ) : List ℚ :=
  cf.map (· * ((s : ℚ) / cf.sum))

/-- The `use_cas` loop of `__init__`: for each dataset `i` of size `s` (slice
`dataset_dicts[st:st+s]`), either the renormalized class-balance factors or
`torch.ones(s)`; `use_cas[i]` raises IndexError when out of range.  `torch.cat`
of the per-dataset blocks is `++`. -/
def casLoop (dicts : List Record) ( use_cas : List Bool) :
    ℕ → ℕ → List ℕ → Except String (List ℚ)
  | _, _, [] => .ok []
  | i, st, s :: rest =>
    match use_cas.get? i with
    | none => .error "IndexError: use_cas"
    | some b =>
      let blk :=
        if b then casRenorm (class_balance_factors ((dicts.drop st).take s) 1) s
        else List.replicate s 1
      (casLoop dicts use_cas (i + 1) (st + s) rest).map (fun tail => blk ++ tail)

/-- The control flow of the `use_rfs` loop of `__init__`.  Only the index
accesses `use_rfs[i]` and `dataset_ann[i]` can raise; the repeat-factor
*values* it computes are multiplied into `self.weights` and then discarded by
the final overwrite `self.weights = dataset_weight * cas_factors`, so they are
embedded separately (`repeat_factors_from_tag_frequency` below) and only the
error effects are tracked here. -/
def rfsCheck ( use_rfs : List Bool) (dataset_ann : List String) :
    ℕ → List ℕ → Except String Unit
  | _, [] => .ok ()
  | i, _ :: rest =>
    match use_rfs.get? i with
    | none => .error "IndexError: use_rfs"
    | some b =>
      if b then
        match dataset_ann.get? i with
        | none => .error "IndexError: dataset_ann"
        | some _ => rfsCheck use_rfs dataset_ann (i + 1) rest
      else rfsCheck use_rfs dataset_ann (i + 1) rest

/-- The fields the constructor stores (the spec's SamplerState). -/
structure SamplerState where
  sizes : List ℕ
  seed : ℕ
  rank : ℕ
  world_size : ℕ
  dataset_ids : List ℕ
  sample_epoch_size : ℕ
  weights : List ℚ
deriving DecidableEq, Repr

/-- The constructor `MultiDatasetSampler.__init__`.  `sharedSeed`, `rank`, `world_size` model
the ambient `comm.shared_random_seed()`, `comm.get_rank()`,
`comm.get_world_size()`.  Faithful details:
* the assertion `len(dataset_ratio) == len(sizes)` is embedded as written; it
  compares `len(dataset_ratio)` with the length of a list that was *built*
  with length `len(dataset_ratio)`, so it can never fire;
* `torch.cat` of an empty list of tensors raises, which happens exactly when
  `dataset_ratio = []` survives the counting loop;
* `self.weights = dataset_weight * rfs_factors` is overwritten at the end by
  `self.weights = dataset_weight * cas_factors`; `sample_epoch_size` is the
  length of the overwritten tensor, which equals `len(dataset_weight)`;
* the elementwise tensor products pair equal-length vectors (both sides have
  length `sum sizes`), so `List.zipWith (· * ·)` is exact. -/
def MultiDatasetSampler.init (sharedSeed rank world_size : ℕ)
    (dataset_dicts : List Record) (dataset_ratio : List ℚ)
    ( use_rfs use_cas : List Bool) (dataset_ann : List String)
    (_repeat_threshold : ℚ) (seed : Option ℕ) : Except String SamplerState := do
  let sizes ← match computeSizes dataset_dicts dataset_ratio.length with
    | none => Except.error "IndexError: dataset_source"
    | some s => Except.ok s
  if dataset_ratio.length ≠ sizes.length then
    Except.error "AssertionError: length of dataset ratio"
  else
  let theSeed := seed.getD sharedSeed
  let dataset_ids := dataset_dicts.map (·.dataset_source)
  if dataset_ratio.isEmpty then
    Except.error "RuntimeError: torch.cat of empty tensor list"
  else
  let dw := datasetWeightVec dataset_ratio sizes
  rfsCheck use_rfs dataset_ann 0 sizes
  let sample_epoch_size := dw.length
  let cas ← casLoop dataset_dicts use_cas 0 0 sizes
  Except.ok { sizes := sizes, seed := theSeed, rank := rank,
              world_size := world_size, dataset_ids := dataset_ids,
              sample_epoch_size := sample_epoch_size,
              weights := List.zipWith (· * ·) dw cas }

/-- Total number of occurrences of tag `c` in the group: the source increments
`category_freq[cat_id]` for every element of the *list*
`d["pos_category_ids"]` (no dedup, unlike the class-balance pass). -/
def tagCount (ds : List Record) (c : ℕ) : ℕ :=
  (ds.map (fun r => r.tag_ids.count c)).sum

/-- The frequency `category_freq[k] = v / num_images`. -/
def tagFreq (ds : List Record) (c : ℕ) : ℚ :=
  (tagCount ds c : ℚ) / (ds.length : ℚ)

/-- The rep value `category_rep[c] = max(1.0, math.sqrt(repeat_thresh / cat_freq))`. -/
noncomputable def tagRep (thresh freq : ℚ) : ℝ :=
  max 1 (Real.sqrt ((thresh : ℝ) / (freq : ℝ)))

/-- Per-record repeat factor:
`max({category_rep[c] for c in d["pos_category_ids"]}, default=1.0)` —
the maximum of the rep values over the record's tag list, or `1.0` when the
list is empty. -/
noncomputable def recordRepFactor (ds : List Record) (thresh : ℚ) (r : Record) : ℝ :=
  match r.tag_ids with
  | [] => 1
  | t :: ts => (ts.map (fun c => tagRep thresh (tagFreq ds c))).foldl max
      (tagRep thresh (tagFreq ds t))

/-- The function `repeat_factors_from_tag_frequency(dataset_dicts, repeat_thresh)`. -/
noncomputable def repeat_factors_from_tag_frequency
    (ds : List Record) (thresh : ℚ) : List ℝ :=
  ds.map (recordRepFactor ds thresh)

/-- The renormalization applied in `__init__`:
`rfs_factor = rfs_factor * (s / rfs_factor.sum())`. -/
noncomputable def rfsRenormalized (ds : List Record) (thresh : ℚ) (s : ℕ) : List ℝ :=
  (repeat_factors_from_tag_frequency ds thresh).map
    (· * ((s : ℝ) / (repeat_factors_from_tag_frequency ds thresh).sum))

/-- Modelled from the spec: per-identity frequency, `#records containing tag c`
divided by the number of records. -/
def specTagFreq (ds : List Record) (c : ℕ) : ℚ :=
  ((ds.filter (fun r => c ∈ r.tag_ids)).length : ℚ) / (ds.length : ℚ)

/-- Modelled from the spec: per-record repeat factor, maximum of `rep(c)` over
the record's tag set (`dedup` of its tag list), or `1.0` when empty. -/
noncomputable def specRepFactor (ds : List Record) (thresh : ℚ) (r : Record) : ℝ :=
  match r.tag_ids.dedup with
  | [] => 1
  | t :: ts => (ts.map (fun c => tagRep thresh (specTagFreq ds c))).foldl max
      (tagRep thresh (specTagFreq ds t))

/-- Modelled from the spec: the repeat-factor array of §4.2, renormalized so
that it sums to the group's size. -/
noncomputable def specRepeatFactors (ds : List Record) (thresh : ℚ) : List ℝ :=
  (ds.map (specRepFactor ds thresh)).map
    (· * ((ds.length : ℝ) / (ds.map (specRepFactor ds thresh)).sum))

structure Gen (σ : Type) where
  manualSeed : ℕ → σ
  multinomial : σ → List ℚ → ℕ → σ × (ℕ → ℕ)

/-- Generator state at the start of round `k` (round 0 starts from
`g.manual_seed(self._seed)`). -/
def roundState {σ : Type} (G : Gen σ) (st : SamplerState) : ℕ → σ
  | 0 => G.manualSeed st.seed
  | k + 1 => (G.multinomial (roundState G st k) st.weights st.sample_epoch_size).1

/-- The flat draw stream of `_infinite_indices`: position `p` lives in round
`p / sample_epoch_size` at offset `p % sample_epoch_size`. -/
def infiniteIndices {σ : Type} (G : Gen σ) (st : SamplerState) (p : ℕ) : ℕ :=
  (G.multinomial (roundState G st (p / st.sample_epoch_size)) st.weights
    st.sample_epoch_size).2 (p % st.sample_epoch_size)

/-- Python `itertools.islice(stream, start, None, step)`: the `n`-th yielded element
is the stream element at position `start + n * step`. -/
def islice {α : Type} (f : ℕ → α) (start step : ℕ) : ℕ → α :=
  fun n => f (start + n * step)

/-- The iterator `__iter__`:
`yield from itertools.islice(self._infinite_indices(), self._rank, None, self._world_size)`. -/
def MultiDatasetSampler.iter {σ : Type} (G : Gen σ) (st : SamplerState) : ℕ → ℕ :=
  islice (infiniteIndices G st) st.rank st.world_size

/-- The set of global stream positions a rank emits: `{rank + n * world_size}`. -/
def emittedPositions (rank world_size : ℕ) : Set ℕ :=
  {p | ∃ n, p = rank + n * world_size}

/-- The class `aspect_ratio_bucket_id = 0 if w > h else 1`. -/
def aspectId (r : Record) : ℕ := if r.width > r.height then 0 else 1

/-- The index `bucket_id = d["dataset_source"] * 2 + aspect_ratio_bucket_id`. -/
def bucketId (r : Record) : ℕ := r.dataset_source * 2 + aspectId r

/-- The initial bucket table `[[] for _ in range(2 * num_datasets)]` (both
grouper constructors build it; construction itself cannot fail). -/
def initBuckets (num_datasets : ℕ) : List (List Record) :=
  List.replicate (2 * num_datasets) []

/-- One step of `MDAspectRatioGroupedDataset.__iter__`: append `d` to its
bucket (IndexError when `bucket_id` is out of range, modelled as `none`), and
emit the bucket when its length reaches `batch_size` (the configured size is a
Python `int`, possibly non-positive, hence `ℤ`). -/
def mdStep (batch_size : ℤ) (bs : List (List Record)) (d : Record) :
    Option (List (List Record) × Option (List Record)) :=
  match bs.get? (bucketId d) with
  | none => none
  | some bucket =>
    let bucket := bucket ++ [d]
    if (bucket.length : ℤ) = batch_size then some (bs.set (bucketId d) [], some bucket)
    else some (bs.set (bucketId d) bucket, none)

/-- One step of `DIFFMDAspectRatioGroupedDataset.__iter__`: as `mdStep` but the
target size is `batch_sizes[d["dataset_source"]]` (a second possible
IndexError, *after* the record was appended to its bucket). -/
def diffStep (batch_sizes : List ℤ) (bs : List (List Record)) (d : Record) :
    Option (List (List Record) × Option (List Record)) :=
  match bs.get? (bucketId d) with
  | none => none
  | some bucket =>
    let bucket := bucket ++ [d]
    match batch_sizes.get? d.dataset_source with
    | none => none
    | some target =>
      if (bucket.length : ℤ) = target then some (bs.set (bucketId d) [], some bucket)
      else some (bs.set (bucketId d) bucket, none)

/-- Run a grouper step function over the input stream, collecting the emitted
batches in order; the second component is the final bucket table, or `none`
when iteration raised (batches emitted before the error are kept). -/
def groupRun (step : List (List Record) → Record →
      Option (List (List Record) × Option (List Record)))
    (bs : List (List Record)) :
    List Record → List (List Record) × Option (List (List Record))
  | [] => ([], some bs)
  | d :: rest =>
    match step bs d with
    | none => ([], none)
    | some (bs', out) =>
      let t := groupRun step bs' rest
      (out.toList ++ t.1, t.2)

/-- The grouper `MDAspectRatioGroupedDataset`: construction then full iteration over a
(finite prefix of the) input stream. -/
def MDAspectRatioGroupedDataset.run (batch_size : ℤ) (num_datasets : ℕ)
    (stream : List Record) : List (List Record) × Option (List (List Record)) :=
  groupRun (mdStep batch_size) (initBuckets num_datasets) stream

/-- The grouper `DIFFMDAspectRatioGroupedDataset`: construction then full iteration. -/
def DIFFMDAspectRatioGroupedDataset.run (batch_sizes : List ℤ) (num_datasets : ℕ)
    (stream : List Record) : List (List Record) × Option (List (List Record)) :=
  groupRun (diffStep batch_sizes) (initBuckets num_datasets) stream

/-- The C1 failing input: one dataset of four tag-annotated records, tag 5 on
the first record only (frequency 1/4) and tag 6 on the other three
(frequency 3/4); `use_rfs = [True]`, `repeat_threshold = 9/16`. -/
def c1Input : List Record :=
  [⟨0, 2, 1, [], [5], true⟩, ⟨0, 2, 1, [], [6], true⟩,
   ⟨0, 2, 1, [], [6], true⟩, ⟨0, 2, 1, [], [6], true⟩]

/-- Invariant of the bucket table: every record sits in the bucket its
`bucket_id` selects. -/
def BucketsTagged (bs : List (List Record)) : Prop :=
  ∀ j b, bs.get? j = some b → ∀ r ∈ b, bucketId r = j

/-- Invariant of the bucket table, with its size: `2 * num_datasets` buckets,
each holding only its own records. -/
def BucketsWF (nd : ℕ) (bs : List (List Record)) : Prop :=
  bs.length = 2 * nd ∧ BucketsTagged bs

/-- The per-dataset class-balance block of `__init__` for one group with flag
`b`: the renormalized class-balance factors, or all ones. -/
def casBlock (g : List Record) (b : Bool) : List ℚ :=
  if b then casRenorm (class_balance_factors g 1) g.length
  else List.replicate g.length 1

/-- The concatenation of per-dataset class-balance blocks, group `k` governed
by `use_cas[i + k]`. -/
def casBlocks : List (List Record) → List Bool → ℕ → List ℚ
  | [], _, _ => []
  | g :: gs, ucas, i => casBlock g (ucas.getD i false) ++ casBlocks gs ucas (i + 1)

/-- Modelled from the spec:
`dataset_weight[i] = max(sizes) / sizes[i] * ratio[i] / sum(ratio)`. -/
def specDatasetWeight (sizes : List ℕ) (ratio : List ℚ) (i : ℕ) : ℚ :=
  (maxSizes sizes : ℚ) / (sizes.getD i 0 : ℚ) * ratio.getD i 0 / ratio.sum

/-- The two groups of the spec's §8 scenario: sizes 100 and 10. -/
def c4G0 : List Record := List.replicate 100 ⟨0, 2, 1, [0], [], true⟩

def c4G1 : List Record := List.replicate 10 ⟨0, 1, 2, [1], [], true⟩

/-! ### Theorems -/

theorem tagSource_length (sid : ℕ) (rs : List Record) :
    (tagSource sid rs).length = rs.length := by
  simp [tagSource]

theorem tagFrom_length (i0 : ℕ) (gs : List (List Record)) :
    (tagFrom i0 gs).length = (gs.map List.length).sum := by
  induction gs generalizing i0 with
  | nil => rfl
  | cons g gs ih => simp [tagFrom, tagSource_length, ih]

/-- The merged list: records of earlier datasets precede later ones, each
group keeps its order, group `k` (counting from `i0`) is its input list with
every record's `dataset_source` set to `i0 + k`. -/
theorem tagFrom_cons (i0 : ℕ) (g : List Record) (gs : List (List Record)) :
    tagFrom i0 (g :: gs) = tagSource i0 g ++ tagFrom (i0 + 1) gs := rfl

/-- C3. For every ordered list of non-empty dataset record-lists, the merger
returns exactly the flat concatenation of the input groups in order, each
record retagged with its 0-based source index (`tagFrom 0`), with no record
dropped (the total length is the sum of the group lengths) — and the result is
the same for every value of `filter_empty` and `min_keypoints` and for every
choice of the external filter functions, whose output the source discards. -/
theorem merger_is_order_preserving_concat
    (fc : List Record → List Record) (fk : ℕ → List Record → List Record)
    (datasets : List (List Record)) ( filter_empty : Bool) (min_keypoints : ℕ)
    (hne : datasets ≠ []) (hall : ∀ g ∈ datasets, g ≠ []) :
    get_detection_dataset_dicts_with_source fc fk none datasets
        filter_empty min_keypoints = some (tagFrom 0 datasets) ∧
    (tagFrom 0 datasets).length = (datasets.map List.length).sum := by
  constructor
  · have h1 : datasets.isEmpty = false := by
      cases datasets with
      | nil => exact absurd rfl hne
      | cons a l => rfl
    have h2 : datasets.any (·.isEmpty) = false := by
      rw [List.any_eq_false]
      intro g hg
      have := hall g hg
      cases g with
      | nil => exact absurd rfl this
      | cons a l => simp
    simp [get_detection_dataset_dicts_with_source, h1, h2]
  · exact tagFrom_length 0 datasets

/-- Witness for C3 at a concrete input: two one-record datasets, with the
identity functions standing for the external filters. -/
theorem merger_is_order_preserving_concat_witness :
    get_detection_dataset_dicts_with_source id (fun _ l => l)
        none [[⟨5, 2, 1, [0], [], true⟩], [⟨7, 1, 2, [], [3], false⟩]] true 2 =
      some (tagFrom 0 [[⟨5, 2, 1, [0], [], true⟩], [⟨7, 1, 2, [], [3], false⟩]]) ∧
    (tagFrom 0 [[⟨5, 2, 1, [0], [], true⟩], [⟨7, 1, 2, [], [3], false⟩]]).length =
      ([[(⟨5, 2, 1, [0], [], true⟩ : Record)], [⟨7, 1, 2, [], [3], false⟩]].map
        List.length).sum :=
  merger_is_order_preserving_concat id (fun _ l => l) _ true 2
    (by decide) (by decide)

/-- C9.  The claim says construction fails with a configuration-mismatch error
whenever `len(dataset_ratio)` (or `use_rfs`/`use_cas`) differs from the number
of datasets present in the merged record list.  On this input only dataset 0
is present (two records) while `dataset_ratio`, `use_rfs`, `use_cas` all have
length 2 — yet construction succeeds and returns a fully formed state with
`sizes = [2, 0]`: the source's assertion compares `len(dataset_ratio)` with
the length of the `sizes` list it itself built with `len(dataset_ratio)`
entries, so it can never fire. -/
theorem construction_accepts_mismatched_ratio_length :
    MultiDatasetSampler.init 0 0 1
        [⟨0, 2, 1, [0], [], true⟩, ⟨0, 2, 1, [], [], true⟩]
        [1, 1] [false, false] [false, false] ["box", "box"] (1/1000) (some 7) =
      Except.ok ⟨[2, 0], 7, 0, 1, [0, 0], 2, [1/2, 1/2]⟩ := by
  simp [MultiDatasetSampler.init, computeSizes, bumpAt, List.replicate,
    datasetWeightVec, dsWeightConst, maxSizes, casLoop, rfsCheck, Option.getD,
    bind, Except.bind, pure, Except.pure, Except.map]
  norm_num

/-- Counterexample to C2.  A valid construction (one non-empty dataset,
positive ratio) where `use_cas` is enabled and one record has an empty
category set: that record's class-balance factor is `0`, hence its final
weight is `0` — not strictly positive. -/
theorem empty_category_record_gets_zero_weight :
    ∃ st, MultiDatasetSampler.init 0 0 1
        [⟨0, 2, 1, [0], [], true⟩, ⟨0, 2, 1, [], [], true⟩]
        [1] [false] [true] ["box"] (1/1000) (some 7) = Except.ok st ∧
      ¬ ∀ w ∈ st.weights, 0 < w := by
  refine ⟨⟨[2], 7, 0, 1, [0, 0], 2, [2, 0]⟩, ?_, ?_⟩
  · simp [MultiDatasetSampler.init, computeSizes, bumpAt, List.replicate,
      datasetWeightVec, dsWeightConst, maxSizes, casLoop, rfsCheck, Option.getD,
      casRenorm, class_balance_factors, categoryFreq,
      bind, Except.bind, pure, Except.pure, Except.map]
  · intro h
    exact absurd (h 0 (by simp)) (by norm_num)

theorem c1_sqrt_94 : Real.sqrt (9/4) = 3/2 := by
  rw [show (9:ℝ)/4 = (3/2)^2 by norm_num, Real.sqrt_sq (by norm_num)]

theorem c1_rep5 : tagRep (9/16) (1/4) = 3/2 := by
  unfold tagRep
  rw [show (((9:ℚ)/16 : ℚ) : ℝ) / (((1:ℚ)/4 : ℚ) : ℝ) = (9:ℝ)/4 by push_cast; norm_num]
  rw [c1_sqrt_94]
  exact max_eq_right (by norm_num)

theorem c1_rep6 : tagRep (9/16) (3/4) = 1 := by
  unfold tagRep
  rw [show (((9:ℚ)/16 : ℚ) : ℝ) / (((3:ℚ)/4 : ℚ) : ℝ) = (3:ℝ)/4 by push_cast; norm_num]
  refine max_eq_left ?_
  calc Real.sqrt (3/4) ≤ Real.sqrt 1 := Real.sqrt_le_sqrt (by norm_num)
    _ = 1 := Real.sqrt_one

theorem c1_rep_factors :
    repeat_factors_from_tag_frequency c1Input (9/16) = [3/2, 1, 1, 1] := by
  have h5 : tagFreq c1Input 5 = 1/4 := by
    norm_num [tagFreq, tagCount, c1Input]
  have h6 : tagFreq c1Input 6 = 3/4 := by
    norm_num [tagFreq, tagCount, c1Input]
  have e : repeat_factors_from_tag_frequency c1Input (9/16) =
      [tagRep (9/16) (tagFreq c1Input 5), tagRep (9/16) (tagFreq c1Input 6),
       tagRep (9/16) (tagFreq c1Input 6), tagRep (9/16) (tagFreq c1Input 6)] := rfl
  rw [e, h5, h6, c1_rep5, c1_rep6]

/-- C1.  On `c1Input` with `use_rfs = [True]`, construction completes with
final `weights = [1, 1, 1, 1]`, even though the dataset-ratio constants and
class-balance factors are all `1` and the (renormalized) repeat-factor array
is `[4/3, 8/9, 8/9, 8/9] ≠ [1, 1, 1, 1]`: the elementwise product
`dataset_weight * repeat_factor * class_balance_factor` claimed by the spec
would be `[4/3, 8/9, 8/9, 8/9]`, but `__init__` overwrites
`self.weights = dataset_weight * rfs_factors` with
`self.weights = dataset_weight * cas_factors`, dropping the repeat factor. -/
theorem final_weights_drop_repeat_factors :
    MultiDatasetSampler.init 0 0 1 c1Input [1] [true] [false] ["tag"]
        (9/16) (some 7) =
      Except.ok ⟨[4], 7, 0, 1, [0, 0, 0, 0], 4, [1, 1, 1, 1]⟩ ∧
    datasetWeightVec [1] [4] = [1, 1, 1, 1] ∧
    casLoop c1Input [false] 0 0 [4] = Except.ok [1, 1, 1, 1] ∧
    rfsRenormalized c1Input (9/16) 4 = [4/3, 8/9, 8/9, 8/9] := by
  refine ⟨?_, ?_, ?_, ?_⟩
  · simp [MultiDatasetSampler.init, computeSizes, bumpAt, List.replicate,
      datasetWeightVec, dsWeightConst, maxSizes, casLoop, rfsCheck, Option.getD,
      c1Input, bind, Except.bind, pure, Except.pure, Except.map]
  · norm_num [datasetWeightVec, dsWeightConst, maxSizes, List.replicate]
  · simp [casLoop, List.replicate, Except.map]
  · unfold rfsRenormalized
    rw [c1_rep_factors]
    norm_num

theorem le_foldl_max {α : Type} [LinearOrder α] (l : List α) (a : α) :
    a ≤ l.foldl max a := by
  induction l generalizing a with
  | nil => exact le_refl a
  | cons x xs ih => exact le_trans (le_max_left a x) (ih (max a x))

theorem one_le_tagRep (thresh freq : ℚ) : (1 : ℝ) ≤ tagRep thresh freq :=
  le_max_left 1 _

theorem one_le_recordRepFactor (ds : List Record) (thresh : ℚ) (r : Record) :
    (1 : ℝ) ≤ recordRepFactor ds thresh r := by
  unfold recordRepFactor
  cases h : r.tag_ids with
  | nil => exact le_refl 1
  | cons t ts => exact le_trans (one_le_tagRep thresh (tagFreq ds t)) (le_foldl_max _ _)

/-- Under the Record data model (`tag_ids` is a set, hence duplicate-free),
the code's occurrence count of a tag equals the number of records whose tag
set contains it. -/
theorem tagCount_eq_containing (ds : List Record) (c : ℕ)
    (hnd : ∀ r ∈ ds, r.tag_ids.Nodup) :
    tagCount ds c = (ds.filter (fun r => c ∈ r.tag_ids)).length := by
  induction ds with
  | nil => rfl
  | cons r rest ih =>
    have hr := hnd r (List.mem_cons_self r rest)
    have hrest := ih (fun x hx => hnd x (List.mem_cons_of_mem r hx))
    by_cases hc : c ∈ r.tag_ids
    · have h1 : r.tag_ids.count c = 1 := List.count_eq_one_of_mem hr hc
      simp [tagCount, List.filter_cons, hc, h1] at *
      omega
    · have h0 : r.tag_ids.count c = 0 := List.count_eq_zero.mpr hc
      simp [tagCount, List.filter_cons, hc, h0] at *
      omega

theorem tagFreq_eq_specTagFreq (ds : List Record) (c : ℕ)
    (hnd : ∀ r ∈ ds, r.tag_ids.Nodup) :
    tagFreq ds c = specTagFreq ds c := by
  unfold tagFreq specTagFreq
  rw [tagCount_eq_containing ds c hnd]

theorem recordRepFactor_eq_spec (ds : List Record) (thresh : ℚ) (r : Record)
    (hr : r.tag_ids.Nodup) (hnd : ∀ x ∈ ds, x.tag_ids.Nodup) :
    recordRepFactor ds thresh r = specRepFactor ds thresh r := by
  have hfreq : ∀ c, tagFreq ds c = specTagFreq ds c :=
    fun c => tagFreq_eq_specTagFreq ds c hnd
  unfold recordRepFactor specRepFactor
  rw [List.dedup_eq_self.mpr hr]
  cases r.tag_ids with
  | nil => rfl
  | cons t ts => simp only [hfreq]

theorem repeat_factors_eq_spec (ds : List Record) (thresh : ℚ)
    (hnd : ∀ x ∈ ds, x.tag_ids.Nodup) :
    repeat_factors_from_tag_frequency ds thresh = ds.map (specRepFactor ds thresh) := by
  unfold repeat_factors_from_tag_frequency
  exact List.map_congr_left
    (fun r hr => recordRepFactor_eq_spec ds thresh r (hnd r hr) hnd)

theorem repeat_factors_sum_pos (ds : List Record) (thresh : ℚ) (hne : ds ≠ []) :
    (0 : ℝ) < (repeat_factors_from_tag_frequency ds thresh).sum := by
  have hlen : (0 : ℝ) < ds.length := by
    have : 0 < ds.length := List.length_pos.mpr hne
    exact_mod_cast this
  refine lt_of_lt_of_le hlen ?_
  have h1 : ((ds.map (fun _ => (1 : ℝ))).sum : ℝ) ≤
      (ds.map (recordRepFactor ds thresh)).sum :=
    List.sum_le_sum (fun r _ => one_le_recordRepFactor ds thresh r)
  have h2 : (ds.map (fun _ => (1 : ℝ))).sum = (ds.length : ℝ) := by
    rw [List.map_const']
    simp [List.sum_replicate]
  rw [h2] at h1
  exact h1

/-- C5.  For a tag-annotated DatasetGroup (records carrying duplicate-free tag
sets, per the Record data model), the code's repeat-factor block — the output
of `repeat_factors_from_tag_frequency`, renormalized by `__init__`'s
`rfs_factor * (s / rfs_factor.sum())` with `s` the group size — equals the
spec's §4.2 array (frequency `#records containing c / #records`, rep value
`max(1, sqrt(threshold/freq))`, per-record max over the tag set defaulting to
1, renormalized to sum to the group size), and its entries sum exactly to the
group size. -/
theorem tag_repeat_factor_block_matches_spec (ds : List Record) (thresh : ℚ)
    (hne : ds ≠ []) (hnd : ∀ x ∈ ds, x.tag_ids.Nodup) :
    rfsRenormalized ds thresh ds.length = specRepeatFactors ds thresh ∧
    (rfsRenormalized ds thresh ds.length).sum = (ds.length : ℝ) := by
  have hsum := repeat_factors_sum_pos ds thresh hne
  constructor
  · unfold rfsRenormalized specRepeatFactors
    rw [repeat_factors_eq_spec ds thresh hnd]
  · unfold rfsRenormalized
    rw [List.sum_map_mul_right, show (fun b : ℝ => b) = id from rfl, List.map_id]
    exact mul_div_cancel₀ (ds.length : ℝ) (ne_of_gt hsum)

/-- Witness for C5: a single record with an empty tag list — its repeat factor
is the default 1, and the renormalized block `[1]` sums to the group size 1. -/
theorem tag_repeat_factor_block_matches_spec_witness :
    rfsRenormalized [⟨0, 2, 1, [], [], true⟩] (1/1000) 1 =
      specRepeatFactors [⟨0, 2, 1, [], [], true⟩] (1/1000) ∧
    (rfsRenormalized [⟨0, 2, 1, [], [], true⟩] (1/1000) 1).sum =
      (([(⟨0, 2, 1, [], [], true⟩ : Record)].length : ℕ) : ℝ) :=
  tag_repeat_factor_block_matches_spec [⟨0, 2, 1, [], [], true⟩] (1/1000)
    (by simp) (by simp)

/-- C6.  For any generator model and any two sampler states sharing seed,
weights and world\_size `W > 0` but with distinct ranks `< W`: the iterator of
the rank-`r` sampler yields exactly the global draw-stream elements at
positions `r, r+W, r+2W, ...`; the emitted position sets of the two ranks are
disjoint; and the position sets of ranks `0..W-1` cover every position. -/
theorem rank_sharded_stream_partition {σ : Type} (G : Gen σ)
    (st1 st2 : SamplerState) (W : ℕ) (hW : 0 < W)
    (h1 : st1.world_size = W) (h2 : st2.world_size = W)
    (hr1 : st1.rank < W) (hr2 : st2.rank < W) (hne : st1.rank ≠ st2.rank) :
    (∀ n, MultiDatasetSampler.iter G st1 n =
        infiniteIndices G st1 (st1.rank + n * W)) ∧
    (∀ p, p ∈ emittedPositions st1.rank W → p ∈ emittedPositions st2.rank W →
        False) ∧
    (∀ p, ∃ r, r < W ∧ p ∈ emittedPositions r W) := by
  refine ⟨?_, ?_, ?_⟩
  · intro n
    unfold MultiDatasetSampler.iter islice
    rw [h1]
  · rintro p ⟨a, ha⟩ ⟨b, hb⟩
    have hmod : p % W = st1.rank := by
      rw [ha, Nat.add_mul_mod_self_right, Nat.mod_eq_of_lt hr1]
    have hmod2 : p % W = st2.rank := by
      rw [hb, Nat.add_mul_mod_self_right, Nat.mod_eq_of_lt hr2]
    exact hne (hmod.symm.trans hmod2)
  · intro p
    exact ⟨p % W, Nat.mod_lt p hW, p / W, (Nat.mod_add_div' p W).symm⟩

/-- Witness for C6 with world size 2 and ranks 0 and 1 (a trivial generator
model standing for torch). -/
theorem rank_sharded_stream_partition_witness :
    (∀ n, MultiDatasetSampler.iter (⟨id, fun s _ _ => (s, fun _ => 0)⟩ : Gen ℕ)
        ⟨[], 0, 0, 2, [], 1, []⟩ n =
      infiniteIndices ⟨id, fun s _ _ => (s, fun _ => 0)⟩
        ⟨[], 0, 0, 2, [], 1, []⟩
        ((⟨[], 0, 0, 2, [], 1, []⟩ : SamplerState).rank + n * 2)) ∧
    (∀ p, p ∈ emittedPositions (⟨[], 0, 0, 2, [], 1, []⟩ : SamplerState).rank 2 →
      p ∈ emittedPositions (⟨[], 0, 1, 2, [], 1, []⟩ : SamplerState).rank 2 →
        False) ∧
    (∀ p, ∃ r, r < 2 ∧ p ∈ emittedPositions r 2) :=
  rank_sharded_stream_partition (⟨id, fun s _ _ => (s, fun _ => 0)⟩ : Gen ℕ)
    ⟨[], 0, 0, 2, [], 1, []⟩ ⟨[], 0, 1, 2, [], 1, []⟩ 2
    (by decide) rfl rfl (by decide) (by decide) (by decide)

/-- C7.  With an explicit seed, construction is independent of the ambient
shared random seed (the only run-to-run varying input): two independently
constructed samplers over the same records and configuration yield identical
index streams, for every draw-count `K` and every generator model. -/
theorem explicit_seed_two_run_determinism {σ : Type} (G : Gen σ)
    (sh1 sh2 rank world_size : ℕ) (dd : List Record) (ratio : List ℚ)
    (urfs ucas : List Bool) (ann : List String) (th : ℚ) (s : ℕ)
    (st1 st2 : SamplerState) (K : ℕ)
    (hinit1 : MultiDatasetSampler.init sh1 rank world_size dd ratio urfs ucas
        ann th (some s) = Except.ok st1)
    (hinit2 : MultiDatasetSampler.init sh2 rank world_size dd ratio urfs ucas
        ann th (some s) = Except.ok st2) :
    (List.range K).map (MultiDatasetSampler.iter G st1) =
      (List.range K).map (MultiDatasetSampler.iter G st2) := by
  have heq : MultiDatasetSampler.init sh1 rank world_size dd ratio urfs ucas
      ann th (some s) = MultiDatasetSampler.init sh2 rank world_size dd ratio
      urfs ucas ann th (some s) := rfl
  rw [heq, hinit2] at hinit1
  have : st2 = st1 := Except.ok.inj hinit1
  rw [this]

/-- Witness for C7: one single-record dataset, explicit seed 3, two different
ambient shared seeds (5 and 9), first three draws. -/
theorem explicit_seed_two_run_determinism_witness :
    (List.range 3).map (MultiDatasetSampler.iter
        (⟨id, fun s _ _ => (s, fun _ => 0)⟩ : Gen ℕ) ⟨[1], 3, 0, 1, [0], 1, [1]⟩) =
      (List.range 3).map (MultiDatasetSampler.iter
        (⟨id, fun s _ _ => (s, fun _ => 0)⟩ : Gen ℕ) ⟨[1], 3, 0, 1, [0], 1, [1]⟩) :=
  explicit_seed_two_run_determinism (⟨id, fun s _ _ => (s, fun _ => 0)⟩ : Gen ℕ)
    5 9 0 1 [⟨0, 2, 1, [], [], true⟩] [1] [false] [false] ["box"] (1/1000) 3
    ⟨[1], 3, 0, 1, [0], 1, [1]⟩ ⟨[1], 3, 0, 1, [0], 1, [1]⟩ 3
    (by simp [MultiDatasetSampler.init, computeSizes, bumpAt, List.replicate,
      datasetWeightVec, dsWeightConst, maxSizes, casLoop, rfsCheck, Option.getD,
      bind, Except.bind, pure, Except.pure, Except.map])
    (by simp [MultiDatasetSampler.init, computeSizes, bumpAt, List.replicate,
      datasetWeightVec, dsWeightConst, maxSizes, casLoop, rfsCheck, Option.getD,
      bind, Except.bind, pure, Except.pure, Except.map])

theorem aspectId_le_one (r : Record) : aspectId r ≤ 1 := by
  unfold aspectId
  split <;> omega

theorem bucketId_lt_iff (nd : ℕ) (r : Record) :
    bucketId r < 2 * nd ↔ r.dataset_source < nd := by
  have := aspectId_le_one r
  unfold bucketId
  omega

theorem bucketId_inj_source {a b : Record} (h : bucketId a = bucketId b) :
    a.dataset_source = b.dataset_source ∧ (a.width > a.height ↔ b.width > b.height) := by
  have ha := aspectId_le_one a
  have hb := aspectId_le_one b
  unfold bucketId at h
  have hsrc : a.dataset_source = b.dataset_source ∧ aspectId a = aspectId b := by omega
  refine ⟨hsrc.1, ?_⟩
  have := hsrc.2
  unfold aspectId at this
  by_cases h1 : a.width > a.height <;> by_cases h2 : b.width > b.height <;>
    simp [h1, h2] at this ⊢

theorem initBuckets_wf (nd : ℕ) : BucketsWF nd (initBuckets nd) := by
  constructor
  · simp [initBuckets]
  · intro j b hj r hr
    unfold initBuckets at hj
    rcases List.get?_eq_some.mp hj with ⟨hlt, hget⟩
    rw [List.get_replicate] at hget
    rw [← hget] at hr
    exact absurd hr (List.not_mem_nil r)

theorem bucketsTagged_set (bs : List (List Record)) (j : ℕ) (b : List Record)
    (hInv : BucketsTagged bs) (hjlt : j < bs.length)
    (hb : ∀ r ∈ b, bucketId r = j) :
    BucketsTagged (bs.set j b) := by
  intro k c hk r hr
  by_cases hjk : j = k
  · subst hjk
    rw [List.get?_set_eq_of_lt b hjlt] at hk
    injection hk with h
    exact hb r (by rw [h]; exact hr)
  · rw [List.get?_set_ne b bs hjk] at hk
    exact hInv k c hk r hr

theorem bucketsWF_set (nd : ℕ) (bs : List (List Record)) (j : ℕ) (b : List Record)
    (hInv : BucketsWF nd bs) (hjlt : j < bs.length)
    (hb : ∀ r ∈ b, bucketId r = j) :
    BucketsWF nd (bs.set j b) :=
  ⟨by rw [List.length_set]; exact hInv.1,
   bucketsTagged_set bs j b hInv.2 hjlt hb⟩

/-- Lemma: `mdStep` under the invariant: it never raises when the record's source is
in range, preserves the invariant, and an emitted batch is exactly one bucket
(so every member shares the incoming record's `bucket_id`) of length
`batch_size`, and non-empty. -/
theorem mdStep_spec (nd : ℕ) (batch_size : ℤ) (bs : List (List Record)) (d : Record)
    (hInv : BucketsWF nd bs) (hd : d.dataset_source < nd) :
    ∃ bs' out, mdStep batch_size bs d = some (bs', out) ∧ BucketsWF nd bs' ∧
      ∀ batch, out = some batch →
        (∀ a ∈ batch, bucketId a = bucketId d) ∧
        (batch.length : ℤ) = batch_size ∧ batch ≠ [] := by
  have hlt : bucketId d < bs.length := by
    rw [hInv.1]
    exact (bucketId_lt_iff nd d).mpr hd
  have hget : bs.get? (bucketId d) = some (bs.get ⟨bucketId d, hlt⟩) :=
    List.get?_eq_get hlt
  set bucket := bs.get ⟨bucketId d, hlt⟩ with hbdef
  have hmem : ∀ a ∈ bucket ++ [d], bucketId a = bucketId d := by
    intro a ha
    rcases List.mem_append.mp ha with h | h
    · exact hInv.2 (bucketId d) bucket hget a h
    · rw [List.mem_singleton.mp h]
  have hstep : mdStep batch_size bs d =
      (if ((bucket ++ [d]).length : ℤ) = batch_size then
        some (bs.set (bucketId d) [], some (bucket ++ [d]))
      else some (bs.set (bucketId d) (bucket ++ [d]), none)) := by
    unfold mdStep
    rw [hget]
  by_cases hsz : ((bucket ++ [d]).length : ℤ) = batch_size
  · rw [if_pos hsz] at hstep
    refine ⟨bs.set (bucketId d) [], some (bucket ++ [d]), hstep, ?_, ?_⟩
    · exact bucketsWF_set nd bs (bucketId d) [] hInv hlt (by intro r hr; cases hr)
    · intro batch hbatch
      injection hbatch with hbatch
      rw [← hbatch]
      exact ⟨hmem, hsz, by simp⟩
  · rw [if_neg hsz] at hstep
    refine ⟨bs.set (bucketId d) (bucket ++ [d]), none, hstep, ?_, ?_⟩
    · exact bucketsWF_set nd bs (bucketId d) (bucket ++ [d]) hInv hlt hmem
    · intro batch hbatch
      cases hbatch

/-- Lemma: `diffStep` under the invariant, additionally requiring the record's source
to be in range of `batch_sizes`; the emitted batch's length is the configured
per-dataset size of the incoming record's dataset. -/
theorem diffStep_spec (nd : ℕ) (batch_sizes : List ℤ) (bs : List (List Record))
    (d : Record) (hInv : BucketsWF nd bs) (hd : d.dataset_source < nd)
    (hbs : d.dataset_source < batch_sizes.length) :
    ∃ bs' out target, batch_sizes.get? d.dataset_source = some target ∧
      diffStep batch_sizes bs d = some (bs', out) ∧ BucketsWF nd bs' ∧
      ∀ batch, out = some batch →
        (∀ a ∈ batch, bucketId a = bucketId d) ∧
        (batch.length : ℤ) = target ∧ batch ≠ [] := by
  have hlt : bucketId d < bs.length := by
    rw [hInv.1]
    exact (bucketId_lt_iff nd d).mpr hd
  have hget : bs.get? (bucketId d) = some (bs.get ⟨bucketId d, hlt⟩) :=
    List.get?_eq_get hlt
  set bucket := bs.get ⟨bucketId d, hlt⟩ with hbdef
  have hmem : ∀ a ∈ bucket ++ [d], bucketId a = bucketId d := by
    intro a ha
    rcases List.mem_append.mp ha with h | h
    · exact hInv.2 (bucketId d) bucket hget a h
    · rw [List.mem_singleton.mp h]
  have htget : batch_sizes.get? d.dataset_source =
      some (batch_sizes.get ⟨d.dataset_source, hbs⟩) := List.get?_eq_get hbs
  set target := batch_sizes.get ⟨d.dataset_source, hbs⟩ with htdef
  have hstep : diffStep batch_sizes bs d =
      (if ((bucket ++ [d]).length : ℤ) = target then
        some (bs.set (bucketId d) [], some (bucket ++ [d]))
      else some (bs.set (bucketId d) (bucket ++ [d]), none)) := by
    unfold diffStep
    rw [hget, htget]
  by_cases hsz : ((bucket ++ [d]).length : ℤ) = target
  · rw [if_pos hsz] at hstep
    refine ⟨bs.set (bucketId d) [], some (bucket ++ [d]), target, htget,
      hstep, ?_, ?_⟩
    · exact bucketsWF_set nd bs (bucketId d) [] hInv hlt (by intro r hr; cases hr)
    · intro batch hbatch
      injection hbatch with hbatch
      rw [← hbatch]
      exact ⟨hmem, hsz, by simp⟩
  · rw [if_neg hsz] at hstep
    refine ⟨bs.set (bucketId d) (bucket ++ [d]), none, target, htget,
      hstep, ?_, ?_⟩
    · exact bucketsWF_set nd bs (bucketId d) (bucket ++ [d]) hInv hlt hmem
    · intro batch hbatch
      cases hbatch

/-- Generic run lemma: if each step succeeds, preserves the invariant and
emits only batches satisfying `P`, the whole run succeeds and every collected
batch satisfies `P`. -/
theorem groupRun_spec (step : List (List Record) → Record →
      Option (List (List Record) × Option (List Record)))
    (Inv : List (List Record) → Prop) (P : List Record → Prop)
    (stream0 : List Record)
    (hstep : ∀ bs d, Inv bs → d ∈ stream0 →
      ∃ bs' out, step bs d = some (bs', out) ∧ Inv bs' ∧
        ∀ batch, out = some batch → P batch) :
    ∀ stream, (∀ d ∈ stream, d ∈ stream0) → ∀ bs, Inv bs →
      (∀ batch ∈ (groupRun step bs stream).1, P batch) ∧
      (groupRun step bs stream).2.isSome := by
  intro stream
  induction stream with
  | nil =>
    intro _ bs hInv
    exact ⟨fun batch hb => absurd hb (List.not_mem_nil batch), rfl⟩
  | cons d rest ih =>
    intro hsub bs hInv
    rcases hstep bs d hInv (hsub d (List.mem_cons_self d rest)) with
      ⟨bs', out, hstepeq, hInv', hout⟩
    have hrest := ih (fun x hx => hsub x (List.mem_cons_of_mem d hx)) bs' hInv'
    constructor
    · intro batch hb
      unfold groupRun at hb
      rw [hstepeq] at hb
      simp only at hb
      rcases List.mem_append.mp hb with h | h
      · cases hout0 : out with
        | none => rw [hout0] at h; cases h
        | some b =>
          rw [hout0] at h
          rcases List.mem_singleton.mp h with rfl
          exact hout batch hout0
      · exact hrest.1 batch h
    · unfold groupRun
      rw [hstepeq]
      exact hrest.2

theorem groupRun_cons_none (step : List (List Record) → Record →
      Option (List (List Record) × Option (List Record)))
    (bs : List (List Record)) (d : Record) (rest : List Record)
    (h : step bs d = none) :
    groupRun step bs (d :: rest) = ([], none) := by
  unfold groupRun
  rw [h]

theorem groupRun_cons_some (step : List (List Record) → Record →
      Option (List (List Record) × Option (List Record)))
    (bs : List (List Record)) (d : Record) (rest : List Record)
    (bs' : List (List Record)) (out : Option (List Record))
    (h : step bs d = some (bs', out)) :
    groupRun step bs (d :: rest) =
      (out.toList ++ (groupRun step bs' rest).1, (groupRun step bs' rest).2) := by
  conv_lhs => rw [groupRun]
  rw [h]

/-- Batches collected by a (possibly failing) run all satisfy `P`, provided
each *successful* step preserves the invariant and emits only `P`-batches;
batches emitted before an eventual IndexError are covered too. -/
theorem groupRun_batches (step : List (List Record) → Record →
      Option (List (List Record) × Option (List Record)))
    (Inv : List (List Record) → Prop) (P : List Record → Prop)
    (hstep : ∀ bs d bs' out, Inv bs → step bs d = some (bs', out) →
      Inv bs' ∧ ∀ batch, out = some batch → P batch) :
    ∀ stream bs, Inv bs → ∀ batch ∈ (groupRun step bs stream).1, P batch := by
  intro stream
  induction stream with
  | nil =>
    intro bs _ batch hb
    exact absurd hb (List.not_mem_nil batch)
  | cons d rest ih =>
    intro bs hInv batch hb
    cases hstepeq : step bs d with
    | none =>
      rw [groupRun_cons_none step bs d rest hstepeq] at hb
      exact absurd hb (List.not_mem_nil batch)
    | some p =>
      obtain ⟨bs', out⟩ := p
      rw [groupRun_cons_some step bs d rest bs' out hstepeq] at hb
      obtain ⟨hInv', hout⟩ := hstep bs d bs' out hInv hstepeq
      rcases List.mem_append.mp hb with h | h
      · cases hout0 : out with
        | none => rw [hout0] at h; exact absurd h (List.not_mem_nil batch)
        | some b =>
          rw [hout0] at h
          rcases List.mem_singleton.mp h with rfl
          exact hout batch hout0
      · exact ih bs' hInv' batch h

/-- Soundness of a successful `mdStep` without any range hypothesis (success
itself witnesses that the bucket index was in range). -/
theorem mdStep_sound (batch_size : ℤ) (bs : List (List Record)) (d : Record)
    (bs' : List (List Record)) (out : Option (List Record))
    (hInv : BucketsTagged bs) (hstep : mdStep batch_size bs d = some (bs', out)) :
    BucketsTagged bs' ∧ ∀ batch, out = some batch →
      (∀ a ∈ batch, bucketId a = bucketId d) ∧
      (batch.length : ℤ) = batch_size ∧ batch ≠ [] := by
  cases hget : bs.get? (bucketId d) with
  | none =>
    have hred : mdStep batch_size bs d = none := by
      unfold mdStep
      rw [hget]
    rw [hred] at hstep
    cases hstep
  | some bucket =>
    have hred : mdStep batch_size bs d =
        (if ((bucket ++ [d]).length : ℤ) = batch_size then
          some (bs.set (bucketId d) [], some (bucket ++ [d]))
        else some (bs.set (bucketId d) (bucket ++ [d]), none)) := by
      unfold mdStep
      rw [hget]
    rw [hred] at hstep
    have hlt : bucketId d < bs.length := (List.get?_eq_some.mp hget).1
    have hmem : ∀ a ∈ bucket ++ [d], bucketId a = bucketId d := by
      intro a ha
      rcases List.mem_append.mp ha with h | h
      · exact hInv (bucketId d) bucket hget a h
      · rw [List.mem_singleton.mp h]
    by_cases hsz : ((bucket ++ [d]).length : ℤ) = batch_size
    · rw [if_pos hsz] at hstep
      injection hstep with hstep
      cases hstep
      refine ⟨bucketsTagged_set bs (bucketId d) [] hInv hlt
        (fun r hr => absurd hr (List.not_mem_nil r)), ?_⟩
      intro batch hbatch
      injection hbatch with hbatch
      rw [← hbatch]
      exact ⟨hmem, hsz, by simp⟩
    · rw [if_neg hsz] at hstep
      injection hstep with hstep
      cases hstep
      refine ⟨bucketsTagged_set bs (bucketId d) (bucket ++ [d]) hInv hlt hmem, ?_⟩
      intro batch hbatch
      cases hbatch

/-- Soundness of a successful `diffStep` without range hypotheses. -/
theorem diffStep_sound (batch_sizes : List ℤ) (bs : List (List Record))
    (d : Record) (bs' : List (List Record)) (out : Option (List Record))
    (hInv : BucketsTagged bs)
    (hstep : diffStep batch_sizes bs d = some (bs', out)) :
    BucketsTagged bs' ∧ ∀ batch, out = some batch →
      (∀ a ∈ batch, bucketId a = bucketId d) ∧ d ∈ batch ∧
      batch_sizes.get? d.dataset_source = some ((batch.length : ℤ)) ∧
      batch ≠ [] := by
  cases hget : bs.get? (bucketId d) with
  | none =>
    have hred : diffStep batch_sizes bs d = none := by
      unfold diffStep
      rw [hget]
    rw [hred] at hstep
    cases hstep
  | some bucket =>
    have hlt : bucketId d < bs.length := (List.get?_eq_some.mp hget).1
    have hmem : ∀ a ∈ bucket ++ [d], bucketId a = bucketId d := by
      intro a ha
      rcases List.mem_append.mp ha with h | h
      · exact hInv (bucketId d) bucket hget a h
      · rw [List.mem_singleton.mp h]
    cases htget : batch_sizes.get? d.dataset_source with
    | none =>
      have hred : diffStep batch_sizes bs d = none := by
        unfold diffStep
        rw [hget, htget]
      rw [hred] at hstep
      cases hstep
    | some target =>
      have hred : diffStep batch_sizes bs d =
          (if ((bucket ++ [d]).length : ℤ) = target then
            some (bs.set (bucketId d) [], some (bucket ++ [d]))
          else some (bs.set (bucketId d) (bucket ++ [d]), none)) := by
        unfold diffStep
        rw [hget, htget]
      rw [hred] at hstep
      by_cases hsz : ((bucket ++ [d]).length : ℤ) = target
      · rw [if_pos hsz] at hstep
        injection hstep with hstep
        cases hstep
        refine ⟨bucketsTagged_set bs (bucketId d) [] hInv hlt
          (fun r hr => absurd hr (List.not_mem_nil r)), ?_⟩
        intro batch hbatch
        injection hbatch with hbatch
        rw [← hbatch]
        refine ⟨hmem, by simp, ?_, by simp⟩
        exact congrArg some hsz.symm
      · rw [if_neg hsz] at hstep
        injection hstep with hstep
        cases hstep
        refine ⟨bucketsTagged_set bs (bucketId d) (bucket ++ [d]) hInv hlt hmem, ?_⟩
        intro batch hbatch
        cases hbatch

theorem initBuckets_tagged (nd : ℕ) : BucketsTagged (initBuckets nd) :=
  (initBuckets_wf nd).2

/-- Every batch the uniform-size grouper ever emits (also on streams that later
raise) lives in one bucket, has length `batch_size` and is non-empty. -/
theorem mdRun_batches_spec (batch_size : ℤ) (nd : ℕ) (stream : List Record) :
    ∀ batch ∈ (MDAspectRatioGroupedDataset.run batch_size nd stream).1,
      (∃ k, ∀ a ∈ batch, bucketId a = k) ∧
      (batch.length : ℤ) = batch_size ∧ batch ≠ [] := by
  refine groupRun_batches (mdStep batch_size) BucketsTagged _ ?_ stream
    (initBuckets nd) (initBuckets_tagged nd)
  intro bs d bs' out hInv hstep
  obtain ⟨hInv', hout⟩ := mdStep_sound batch_size bs d bs' out hInv hstep
  refine ⟨hInv', fun batch hb => ?_⟩
  obtain ⟨h1, h2, h3⟩ := hout batch hb
  exact ⟨⟨bucketId d, h1⟩, h2, h3⟩

/-- Every batch the per-dataset-size grouper ever emits lives in one bucket,
is non-empty, and every member's configured per-dataset size equals the
batch's length. -/
theorem diffRun_batches_spec (batch_sizes : List ℤ) (nd : ℕ) (stream : List Record) :
    ∀ batch ∈ (DIFFMDAspectRatioGroupedDataset.run batch_sizes nd stream).1,
      (∃ k, ∀ a ∈ batch, bucketId a = k) ∧
      (∀ a ∈ batch, batch_sizes.get? a.dataset_source =
        some ((batch.length : ℤ))) ∧ batch ≠ [] := by
  refine groupRun_batches (diffStep batch_sizes) BucketsTagged _ ?_ stream
    (initBuckets nd) (initBuckets_tagged nd)
  intro bs d bs' out hInv hstep
  obtain ⟨hInv', hout⟩ := diffStep_sound batch_sizes bs d bs' out hInv hstep
  refine ⟨hInv', fun batch hb => ?_⟩
  obtain ⟨h1, hd, htgt, h3⟩ := hout batch hb
  refine ⟨⟨bucketId d, h1⟩, fun a ha => ?_, h3⟩
  have : a.dataset_source = d.dataset_source :=
    (bucketId_inj_source ((h1 a ha).trans (h1 d hd).symm)).1
  rw [this]
  exact htgt

/-- C8.  Every batch either grouper variant emits is homogeneous — all members
share one `dataset_source` and one aspect class (`width > height` vs not) —
and has the configured target length: `batch_size` in the uniform variant,
`dataset_bs[dataset_source]` in the per-dataset variant. -/
theorem grouper_batches_homogeneous_and_sized (stream : List Record)
    (num_datasets : ℕ) (batch_size : ℤ) (dataset_bs : List ℤ)
    (hpos : ∀ r ∈ stream, 0 < r.width ∧ 0 < r.height) :
    (∀ batch ∈ (MDAspectRatioGroupedDataset.run batch_size num_datasets stream).1,
      (∀ a ∈ batch, ∀ b ∈ batch, a.dataset_source = b.dataset_source ∧
        (a.width > a.height ↔ b.width > b.height)) ∧
      (batch.length : ℤ) = batch_size) ∧
    (∀ batch ∈ (DIFFMDAspectRatioGroupedDataset.run dataset_bs num_datasets stream).1,
      (∀ a ∈ batch, ∀ b ∈ batch, a.dataset_source = b.dataset_source ∧
        (a.width > a.height ↔ b.width > b.height)) ∧
      (∀ a ∈ batch, dataset_bs.get? a.dataset_source =
        some ((batch.length : ℤ)))) := by
  constructor
  · intro batch hb
    obtain ⟨⟨k, hk⟩, hlen, _⟩ := mdRun_batches_spec batch_size num_datasets stream batch hb
    exact ⟨fun a ha b hbm => bucketId_inj_source ((hk a ha).trans (hk b hbm).symm),
      hlen⟩
  · intro batch hb
    obtain ⟨⟨k, hk⟩, htgt, _⟩ :=
      diffRun_batches_spec dataset_bs num_datasets stream batch hb
    exact ⟨fun a ha b hbm => bucketId_inj_source ((hk a ha).trans (hk b hbm).symm),
      htgt⟩

/-- Witness for C8: one record of width 2, height 1 in each variant
(`batch_size = 1`, `dataset_bs = [1]`). -/
theorem grouper_batches_homogeneous_and_sized_witness :
    (∀ batch ∈ (MDAspectRatioGroupedDataset.run 1 1 [⟨0, 2, 1, [], [], true⟩]).1,
      (∀ a ∈ batch, ∀ b ∈ batch, a.dataset_source = b.dataset_source ∧
        (a.width > a.height ↔ b.width > b.height)) ∧
      (batch.length : ℤ) = 1) ∧
    (∀ batch ∈ (DIFFMDAspectRatioGroupedDataset.run [1] 1 [⟨0, 2, 1, [], [], true⟩]).1,
      (∀ a ∈ batch, ∀ b ∈ batch, a.dataset_source = b.dataset_source ∧
        (a.width > a.height ↔ b.width > b.height)) ∧
      (∀ a ∈ batch, [(1 : ℤ)].get? a.dataset_source =
        some ((batch.length : ℤ)))) :=
  grouper_batches_homogeneous_and_sized [⟨0, 2, 1, [], [], true⟩] 1 1 [1]
    (by decide)

/-- Counterexample to C10.  The per-dataset variant with `num_datasets = 2`
(so `dataset_source = 1` is a valid dataset index and a valid bucket exists
for it) but `dataset_bs = [3]` of length 1: the very first record raises an
IndexError (`batch_sizes[1]`) during iteration — the grouper does not "never
error" for arbitrary streams of records carrying width, height and
dataset\_source. -/
theorem diff_grouper_raises_on_short_batch_sizes :
    (DIFFMDAspectRatioGroupedDataset.run [3] 2 [⟨1, 2, 1, [], [], true⟩]).2 =
      none := by decide

/-- C10 (amended).  Provided every record's `dataset_source` indexes a bucket
(`< num_datasets`) and, in the per-dataset variant, indexes `dataset_bs`,
iteration never errors; and a non-positive target size never emits: with
`batch_size ≤ 0` the uniform variant emits no batch at all, and a dataset `s`
with non-positive `dataset_bs[s]` contributes no batch in the per-dataset
variant (its bucket only ever grows).  Construction (`initBuckets`) is total
and never fails. -/
theorem grouper_never_errors_and_nonpositive_never_emits (stream : List Record)
    (num_datasets : ℕ) (batch_size : ℤ) (dataset_bs : List ℤ)
    (hrange : ∀ r ∈ stream, r.dataset_source < num_datasets)
    (hbs : ∀ r ∈ stream, r.dataset_source < dataset_bs.length) :
    (MDAspectRatioGroupedDataset.run batch_size num_datasets stream).2.isSome ∧
    (DIFFMDAspectRatioGroupedDataset.run dataset_bs num_datasets stream).2.isSome ∧
    (batch_size ≤ 0 →
      (MDAspectRatioGroupedDataset.run batch_size num_datasets stream).1 = []) ∧
    (∀ s t, dataset_bs.get? s = some t → t ≤ 0 →
      ∀ batch ∈ (DIFFMDAspectRatioGroupedDataset.run dataset_bs num_datasets stream).1,
        ∀ r ∈ batch, r.dataset_source ≠ s) := by
  refine ⟨?_, ?_, ?_, ?_⟩
  · exact (groupRun_spec (mdStep batch_size) (BucketsWF num_datasets)
      (fun _ => True) stream
      (fun bs d hInv hd => by
        obtain ⟨bs', out, h1, h2, _⟩ :=
          mdStep_spec num_datasets batch_size bs d hInv (hrange d hd)
        exact ⟨bs', out, h1, h2, fun _ _ => trivial⟩)
      stream (fun _ h => h) (initBuckets num_datasets)
      (initBuckets_wf num_datasets)).2
  · exact (groupRun_spec (diffStep dataset_bs) (BucketsWF num_datasets)
      (fun _ => True) stream
      (fun bs d hInv hd => by
        obtain ⟨bs', out, _, _, h1, h2, _⟩ := diffStep_spec num_datasets dataset_bs
          bs d hInv (hrange d hd) (hbs d hd)
        exact ⟨bs', out, h1, h2, fun _ _ => trivial⟩)
      stream (fun _ h => h) (initBuckets num_datasets)
      (initBuckets_wf num_datasets)).2
  · intro hneg
    rw [List.eq_nil_iff_forall_not_mem]
    intro batch hb
    obtain ⟨_, hlen, hne⟩ := mdRun_batches_spec batch_size num_datasets stream batch hb
    have : 0 < batch.length := List.length_pos.mpr hne
    omega
  · intro s t hget ht batch hb r hr
    obtain ⟨_, htgt, hne⟩ := diffRun_batches_spec dataset_bs num_datasets stream batch hb
    intro hsrc
    have h1 := htgt r hr
    rw [hsrc, hget] at h1
    injection h1 with h1
    have : 0 < batch.length := List.length_pos.mpr hne
    omega

/-- Witness for C10: one valid record, `batch_size = 1`, `dataset_bs = [1]`. -/
theorem grouper_never_errors_witness :
    (MDAspectRatioGroupedDataset.run 1 1 [⟨0, 2, 1, [], [], true⟩]).2.isSome ∧
    (DIFFMDAspectRatioGroupedDataset.run [1] 1 [⟨0, 2, 1, [], [], true⟩]).2.isSome ∧
    ((1 : ℤ) ≤ 0 →
      (MDAspectRatioGroupedDataset.run 1 1 [⟨0, 2, 1, [], [], true⟩]).1 = []) ∧
    (∀ s t, [(1 : ℤ)].get? s = some t → t ≤ 0 →
      ∀ batch ∈ (DIFFMDAspectRatioGroupedDataset.run [1] 1
          [⟨0, 2, 1, [], [], true⟩]).1,
        ∀ r ∈ batch, r.dataset_source ≠ s) :=
  grouper_never_errors_and_nonpositive_never_emits [⟨0, 2, 1, [], [], true⟩]
    1 1 [1] (by decide) (by decide)

theorem set_get?_self (l : List ℕ) (i x : ℕ) (h : l.get? i = some x) :
    l.set i x = l := by
  have h' : l[i]? = some x := by rw [← List.get?_eq_getElem?]; exact h
  apply List.ext_getElem
  · simp
  · intro j hj hj'
    rcases eq_or_ne i j with rfl | hne
    · rw [List.getElem_set_self]
      have h2 : l[i]? = some l[i] := List.getElem?_eq_getElem hj'
      rw [h'] at h2
      injection h2 with hh
    · rw [List.getElem_set_ne hne]

/-- Counting a block of records all tagged with source `i` bumps `sizes[i]` by
the block's length. -/
theorem tagSource_fold_bump (g : List Record) (i : ℕ) :
    ∀ (s0 : List ℕ) (x : ℕ), s0.get? i = some x →
      (tagSource i g).foldl
          (fun acc d => acc.bind (fun s => bumpAt s d.dataset_source)) (some s0) =
        some (s0.set i (x + g.length)) := by
  induction g with
  | nil =>
    intro s0 x h
    simp [tagSource, set_get?_self s0 i x h]
  | cons r g' ih =>
    intro s0 x h
    have hlt : i < s0.length := (List.get?_eq_some.mp h).1
    have hx : s0.get ⟨i, hlt⟩ = x := by
      have := List.get?_eq_get hlt
      rw [h] at this
      injection this with hh
      exact hh.symm
    have hbump : bumpAt s0 i = some (s0.set i (x + 1)) := by
      unfold bumpAt
      rw [dif_pos hlt, hx]
    have hnext : (s0.set i (x + 1)).get? i = some (x + 1) :=
      List.get?_set_eq_of_lt (x + 1) hlt
    have step : (tagSource i (r :: g')).foldl
        (fun acc d => acc.bind (fun s => bumpAt s d.dataset_source)) (some s0) =
        (tagSource i g').foldl
          (fun acc d => acc.bind (fun s => bumpAt s d.dataset_source))
          (some (s0.set i (x + 1))) := by
      simp only [tagSource, List.map_cons, List.foldl_cons, Option.some_bind]
      rw [hbump]
    rw [step, ih (s0.set i (x + 1)) (x + 1) hnext, List.set_set]
    have : x + 1 + g'.length = x + (r :: g').length := by
      simp [List.length_cons]
      omega
    rw [this]

/-- Writing at the boundary of an append replaces the head of the suffix. -/
theorem set_append_boundary (pre : List ℕ) (y z : ℕ) (rest : List ℕ) :
    (pre ++ y :: rest).set pre.length z = pre ++ z :: rest := by
  induction pre with
  | nil => rfl
  | cons a l ih => simp [List.set, ih]

theorem computeSizes_tagFrom_aux :
    ∀ (gs : List (List Record)) (pre : List ℕ),
      (tagFrom pre.length gs).foldl
          (fun acc d => acc.bind (fun s => bumpAt s d.dataset_source))
          (some (pre ++ List.replicate gs.length 0)) =
        some (pre ++ gs.map List.length) := by
  intro gs
  induction gs with
  | nil => intro pre; simp [tagFrom]
  | cons g gs' ih =>
    intro pre
    rw [tagFrom_cons, List.foldl_append]
    have hsplit : pre ++ List.replicate (g :: gs').length 0 =
        pre ++ 0 :: List.replicate gs'.length 0 := by
      simp [List.replicate_succ]
    have hget : (pre ++ 0 :: List.replicate gs'.length 0).get? pre.length =
        some 0 := by
      rw [List.get?_append_right (le_refl pre.length)]
      simp
    rw [hsplit, tagSource_fold_bump g pre.length _ 0 hget, zero_add,
      set_append_boundary]
    have hassoc : pre ++ g.length :: List.replicate gs'.length 0 =
        (pre ++ [g.length]) ++ List.replicate gs'.length 0 := by
      simp
    have hlen : pre.length + 1 = (pre ++ [g.length]).length := by
      simp
    rw [hassoc, hlen, ih (pre ++ [g.length])]
    simp

/-- The size-counting loop on a merged list of `k` tagged groups yields the
group lengths. -/
theorem computeSizes_tagFrom (gs : List (List Record)) :
    computeSizes (tagFrom 0 gs) gs.length = some (gs.map List.length) := by
  have h := computeSizes_tagFrom_aux gs []
  simpa [computeSizes] using h

/-- The rfs control-flow loop succeeds as soon as `use_rfs` and `dataset_ann`
are long enough. -/
theorem rfsCheck_ok ( use_rfs : List Bool) (dataset_ann : List String) :
    ∀ (sizes : List ℕ) (i : ℕ), i + sizes.length ≤ use_rfs.length →
      i + sizes.length ≤ dataset_ann.length →
      rfsCheck use_rfs dataset_ann i sizes = Except.ok () := by
  intro sizes
  induction sizes with
  | nil => intro i _ _; rfl
  | cons s rest ih =>
    intro i h1 h2
    have hi1 : i < use_rfs.length := by
      simp only [List.length_cons] at h1
      omega
    have hi2 : i < dataset_ann.length := by
      simp only [List.length_cons] at h2
      omega
    have hrec := ih (i + 1)
      (by simp only [List.length_cons] at h1; omega)
      (by simp only [List.length_cons] at h2; omega)
    unfold rfsCheck
    rw [List.get?_eq_get hi1]
    cases use_rfs.get ⟨i, hi1⟩ with
    | false => exact hrec
    | true =>
      rw [List.get?_eq_get hi2]
      exact hrec

/-- Retagging `dataset_source` does not change category frequencies. -/
theorem categoryFreq_tagSource (j : ℕ) (g : List Record) (c : ℕ) :
    categoryFreq (tagSource j g) c = categoryFreq g c := by
  unfold categoryFreq tagSource
  rw [List.filter_map, List.length_map]
  rfl

/-- Retagging `dataset_source` does not change class-balance factors. -/
theorem class_balance_factors_tagSource (j : ℕ) (g : List Record) (l : ℕ) :
    class_balance_factors (tagSource j g) l = class_balance_factors g l := by
  unfold class_balance_factors
  simp only [categoryFreq_tagSource]
  unfold tagSource
  rw [List.map_map]
  rfl

/-- The `use_cas` loop over a merged list of tagged groups equals the
concatenation of per-group blocks. -/
theorem casLoop_tagFrom (dicts : List Record) ( use_cas : List Bool) :
    ∀ (gs : List (List Record)) (i st : ℕ),
      dicts.drop st = tagFrom i gs →
      i + gs.length ≤ use_cas.length →
      casLoop dicts use_cas i st (gs.map List.length) =
        Except.ok (casBlocks gs use_cas i) := by
  intro gs
  induction gs with
  | nil => intro i st _ _; rfl
  | cons g gs' ih =>
    intro i st hdrop hlen
    have hi : i < use_cas.length := by
      simp only [List.length_cons] at hlen
      omega
    have hget : use_cas.get? i = some (use_cas.get ⟨i, hi⟩) := List.get?_eq_get hi
    have hgetD : use_cas.getD i false = use_cas.get ⟨i, hi⟩ := by
      unfold List.getD
      rw [hget]
      rfl
    have hslice : (dicts.drop st).take g.length = tagSource i g := by
      rw [hdrop, tagFrom_cons]
      exact List.take_left' (tagSource_length i g)
    have hdrop' : dicts.drop (st + g.length) = tagFrom (i + 1) gs' := by
      rw [← List.drop_drop, hdrop, tagFrom_cons, ← tagSource_length i g,
        List.drop_left]
    have hrec := ih (i + 1) (st + g.length) hdrop'
      (by simp only [List.length_cons] at hlen; omega)
    show (match use_cas.get? i with
      | none => Except.error "IndexError: use_cas"
      | some b =>
        (casLoop dicts use_cas (i + 1) (st + g.length) (gs'.map List.length)).map
          (fun tail =>
            (if b then
              casRenorm (class_balance_factors ((dicts.drop st).take g.length) 1)
                g.length
            else List.replicate g.length 1) ++ tail)) =
      Except.ok (casBlocks (g :: gs') use_cas i)
    rw [hget, hrec, hslice, class_balance_factors_tagSource]
    show Except.ok _ = _
    rw [show casBlocks (g :: gs') use_cas i =
      casBlock g (use_cas.getD i false) ++ casBlocks gs' use_cas (i + 1) from rfl]
    rw [hgetD]
    unfold casBlock
    cases use_cas.get ⟨i, hi⟩ <;> rfl

/-- Construction on a merged list of `n` tagged groups with aligned (or
longer) parameter vectors: it succeeds, `sizes` are the group lengths, and the
final weights are the elementwise product of the dataset-weight vector with
the class-balance blocks — the repeat factors are absent (see
`final_weights_drop_repeat_factors`). -/
theorem init_on_groups (sharedSeed rank world_size : ℕ)
    (groups : List (List Record)) (ratio : List ℚ)
    ( use_rfs use_cas : List Bool) (dataset_ann : List String)
    (th : ℚ) (seed : Option ℕ)
    (hlen : groups.length = ratio.length)
    (hrfs : ratio.length ≤ use_rfs.length)
    (hcas : ratio.length ≤ use_cas.length)
    (hann : ratio.length ≤ dataset_ann.length)
    (hne : ratio ≠ []) :
    MultiDatasetSampler.init sharedSeed rank world_size (tagFrom 0 groups) ratio
        use_rfs use_cas dataset_ann th seed =
      Except.ok { sizes := groups.map List.length,
                  seed := seed.getD sharedSeed, rank := rank,
                  world_size := world_size,
                  dataset_ids := (tagFrom 0 groups).map (·.dataset_source),
                  sample_epoch_size :=
                    (datasetWeightVec ratio (groups.map List.length)).length,
                  weights := List.zipWith (· * ·)
                    (datasetWeightVec ratio (groups.map List.length))
                    (casBlocks groups use_cas 0) } := by
  have hsizes : computeSizes (tagFrom 0 groups) ratio.length =
      some (groups.map List.length) := by
    rw [← hlen]
    exact computeSizes_tagFrom groups
  have hrfsok := rfsCheck_ok use_rfs dataset_ann (groups.map List.length) 0
    (by simp only [List.length_map, Nat.zero_add, hlen]; exact hrfs)
    (by simp only [List.length_map, Nat.zero_add, hlen]; exact hann)
  have hcasok := casLoop_tagFrom (tagFrom 0 groups) use_cas groups 0 0
    (by rw [List.drop_zero])
    (by simp only [Nat.zero_add, hlen]; exact hcas)
  have hlen2 : ¬ ratio.length ≠ (groups.map List.length).length := by
    simp [hlen]
  have hempty : ratio.isEmpty = false := by
    cases ratio with
    | nil => exact absurd rfl hne
    | cons a l => rfl
  unfold MultiDatasetSampler.init
  rw [hsizes]
  simp only [bind, Except.bind, pure, Except.pure, if_neg hlen2, hempty,
    Bool.false_eq_true, if_false, hrfsok, hcasok]

theorem datasetWeightVec_eq_broadcast (ratio : List ℚ) (sizes : List ℕ)
    (h : ratio.length = sizes.length) :
    datasetWeightVec ratio sizes =
      ((List.range ratio.length).map (fun i =>
        List.replicate (sizes.getD i 0) (specDatasetWeight sizes ratio i))).flatten := by
  unfold datasetWeightVec
  congr 1
  apply List.ext_getElem
  · simp [h]
  · intro i hi hi'
    have hi2 : i < sizes.length := by
      simp at hi'
      omega
    have hi3 : i < ratio.length := by
      simp at hi'
      omega
    rw [List.getElem_map, List.getElem_map, List.getElem_range,
      List.getElem_zip]
    unfold specDatasetWeight dsWeightConst
    rw [List.getD_eq_getElem sizes 0 hi2, List.getD_eq_getElem ratio 0 hi3]

theorem flatten_replicate_length {α : Type} (f : ℚ × ℕ → α) :
    ∀ ps : List (ℚ × ℕ),
      ((ps.map (fun p => List.replicate p.2 (f p))).flatten).length =
        (ps.map (fun p => p.2)).sum := by
  intro ps
  induction ps with
  | nil => rfl
  | cons p ps' ih => simp [ih]

theorem map_snd_zip_of_length_eq :
    ∀ (a : List ℚ) (b : List ℕ), a.length = b.length →
      ((a.zip b).map (fun p => p.2)) = b := by
  intro a
  induction a with
  | nil =>
    intro b h
    cases b with
    | nil => rfl
    | cons y s => simp at h
  | cons x t ih =>
    intro b h
    cases b with
    | nil => simp at h
    | cons y s =>
      simp only [List.zip_cons_cons, List.map_cons]
      rw [ih s (by simpa using h)]

theorem datasetWeightVec_length (ratio : List ℚ) (sizes : List ℕ)
    (h : ratio.length = sizes.length) :
    (datasetWeightVec ratio sizes).length = sizes.sum := by
  unfold datasetWeightVec
  rw [flatten_replicate_length, map_snd_zip_of_length_eq ratio sizes h]

theorem casBlocks_all_false (gs : List (List Record)) (n : ℕ) :
    ∀ i, casBlocks gs (List.replicate n false) i =
      List.replicate ((gs.map List.length).sum) 1 := by
  induction gs with
  | nil => intro i; rfl
  | cons g gs' ih =>
    intro i
    have hD : (List.replicate n false).getD i false = false := by
      unfold List.getD
      cases h : (List.replicate n false).get? i with
      | none => rfl
      | some b =>
        rw [List.eq_of_mem_replicate (List.get?_mem h)]
        rfl
    show casBlock g ((List.replicate n false).getD i false) ++
      casBlocks gs' (List.replicate n false) (i + 1) = _
    rw [hD, ih (i + 1)]
    show List.replicate g.length 1 ++ _ = _
    rw [← List.replicate_add]
    simp

theorem zipWith_mul_replicate_one (l : List ℚ) :
    ∀ n, l.length = n → List.zipWith (· * ·) l (List.replicate n 1) = l := by
  induction l with
  | nil => intro n h; simp
  | cons a t ih =>
    intro n h
    cases n with
    | zero => simp at h
    | succ m =>
      simp only [List.replicate_succ, List.zipWith_cons_cons, mul_one]
      rw [ih m (by simpa using h)]

/-- C4.  The dataset-weight vector broadcasts, over every record of
DatasetGroup `i`, the spec constant
`max(sizes) / sizes[i] * ratio[i] / sum(ratio)`; and with both rebalance
flags off for every dataset, the weights the construction stores are exactly
that vector. -/
theorem dataset_weight_is_broadcast_formula (sharedSeed rank world_size : ℕ)
    (groups : List (List Record)) (ratio : List ℚ) (dataset_ann : List String)
    (th : ℚ) (seed : Option ℕ)
    (hlen : groups.length = ratio.length)
    (hann : ratio.length ≤ dataset_ann.length)
    (hne : ratio ≠ []) :
    datasetWeightVec ratio (groups.map List.length) =
      ((List.range ratio.length).map (fun i =>
        List.replicate ((groups.map List.length).getD i 0)
          (specDatasetWeight (groups.map List.length) ratio i))).flatten ∧
    ∃ st, MultiDatasetSampler.init sharedSeed rank world_size (tagFrom 0 groups)
        ratio (List.replicate ratio.length false)
        (List.replicate ratio.length false) dataset_ann th seed =
      Except.ok st ∧
      st.weights = datasetWeightVec ratio (groups.map List.length) := by
  constructor
  · exact datasetWeightVec_eq_broadcast ratio (groups.map List.length)
      (by simp [hlen])
  · refine ⟨_, init_on_groups sharedSeed rank world_size groups ratio
      (List.replicate ratio.length false) (List.replicate ratio.length false)
      dataset_ann th seed hlen (by simp) (by simp) hann hne, ?_⟩
    show List.zipWith (· * ·) (datasetWeightVec ratio (groups.map List.length))
      (casBlocks groups (List.replicate ratio.length false) 0) = _
    rw [casBlocks_all_false groups ratio.length 0]
    exact zipWith_mul_replicate_one (datasetWeightVec ratio (groups.map List.length))
      ((groups.map List.length).sum)
      (datasetWeightVec_length ratio (groups.map List.length) (by simp [hlen]))

/-- Witness for C4 at the spec's scenario: sizes `[100, 10]`,
`dataset_ratio = [1, 1]`, both rebalance flags off — the broadcast constants
are `0.5` and `5.0`. -/
theorem dataset_weight_is_broadcast_formula_witness :
    (datasetWeightVec [1, 1] ([c4G0, c4G1].map List.length) =
      ((List.range ([(1 : ℚ), 1]).length).map (fun i =>
        List.replicate (([c4G0, c4G1].map List.length).getD i 0)
          (specDatasetWeight ([c4G0, c4G1].map List.length) [1, 1] i))).flatten ∧
    ∃ st, MultiDatasetSampler.init 0 0 1 (tagFrom 0 [c4G0, c4G1]) [1, 1]
        (List.replicate ([(1 : ℚ), 1]).length false)
        (List.replicate ([(1 : ℚ), 1]).length false) ["box", "box"]
        (1/1000) (some 7) = Except.ok st ∧
      st.weights = datasetWeightVec [1, 1] ([c4G0, c4G1].map List.length)) ∧
    specDatasetWeight ([c4G0, c4G1].map List.length) [1, 1] 0 = 1/2 ∧
    specDatasetWeight ([c4G0, c4G1].map List.length) [1, 1] 1 = 5 := by
  refine ⟨dataset_weight_is_broadcast_formula 0 0 1 [c4G0, c4G1] [1, 1]
    ["box", "box"] (1/1000) (some 7) rfl (by simp)
    (List.cons_ne_nil 1 [1]), ?_, ?_⟩
  · norm_num [specDatasetWeight, maxSizes, c4G0, c4G1]
  · norm_num [specDatasetWeight, maxSizes, c4G0, c4G1]

theorem le_maxSizes : ∀ (l : List ℕ), ∀ x ∈ l, x ≤ maxSizes l := by
  intro l
  induction l with
  | nil => intro x h; cases h
  | cons a t ih =>
    intro x h
    rcases List.mem_cons.mp h with rfl | h
    · exact le_max_left x (maxSizes t)
    · exact le_trans (ih x h) (le_max_right a (maxSizes t))

theorem mem_datasetWeightVec (ratio : List ℚ) (sizes : List ℕ) (x : ℚ)
    (hx : x ∈ datasetWeightVec ratio sizes) :
    ∃ p ∈ ratio.zip sizes, x = dsWeightConst sizes ratio.sum p.1 p.2 := by
  unfold datasetWeightVec at hx
  rw [List.mem_flatten] at hx
  obtain ⟨s, hs, hxs⟩ := hx
  rw [List.mem_map] at hs
  obtain ⟨p, hp, rfl⟩ := hs
  exact ⟨p, hp, List.eq_of_mem_replicate hxs⟩

theorem mem_casBlocks (x : ℚ) :
    ∀ (gs : List (List Record)) (ucas : List Bool) (i : ℕ),
      x ∈ casBlocks gs ucas i →
      ∃ k, k < gs.length ∧
        x ∈ casBlock (gs.getD k []) (ucas.getD (i + k) false) := by
  intro gs
  induction gs with
  | nil => intro ucas i h; cases h
  | cons g gs' ih =>
    intro ucas i h
    rcases List.mem_append.mp h with h | h
    · exact ⟨0, by simp, by simpa using h⟩
    · obtain ⟨k, hk, hmem⟩ := ih ucas (i + 1) h
      refine ⟨k + 1, by simp; omega, ?_⟩
      have h1 : (g :: gs').getD (k + 1) [] = gs'.getD k [] := rfl
      have h2 : i + (k + 1) = (i + 1) + k := by omega
      rw [h1, h2]
      exact hmem

theorem class_balance_factor_entry_pos (g : List Record)
    (hcats : ∀ r ∈ g, r.category_ids ≠ []) :
    ∀ y ∈ class_balance_factors g 1, 0 < y := by
  intro y hy
  unfold class_balance_factors at hy
  rw [List.mem_map] at hy
  obtain ⟨r, hr, rfl⟩ := hy
  apply List.sum_pos
  · intro q hq
    rw [List.mem_map] at hq
    obtain ⟨c, hc, rfl⟩ := hq
    have hcmem : c ∈ r.category_ids := List.mem_dedup.mp hc
    have hfreq : 0 < categoryFreq g c := by
      unfold categoryFreq
      rw [List.length_pos]
      intro hnil
      have hmemf : r ∈ g.filter (fun rr => c ∈ rr.category_ids) :=
        List.mem_filter.mpr ⟨hr, by simpa using hcmem⟩
      rw [hnil] at hmemf
      cases hmemf
    have hcast : (0 : ℚ) < (categoryFreq g c : ℚ) := by exact_mod_cast hfreq
    rw [pow_one]
    exact div_pos one_pos hcast
  · intro hmapnil
    rw [List.map_eq_nil_iff] at hmapnil
    exact hcats r hr ((List.dedup_eq_nil _).mp hmapnil)

theorem casBlock_entry_pos (g : List Record) (b : Bool) (hg : g ≠ [])
    (hcats : b = true → ∀ r ∈ g, r.category_ids ≠ []) :
    ∀ x ∈ casBlock g b, 0 < x := by
  intro x hx
  unfold casBlock at hx
  cases b with
  | false =>
    rw [if_neg (by simp)] at hx
    rw [List.eq_of_mem_replicate hx]
    exact one_pos
  | true =>
    rw [if_pos rfl] at hx
    unfold casRenorm at hx
    rw [List.mem_map] at hx
    obtain ⟨y, hy, rfl⟩ := hx
    have hentry := class_balance_factor_entry_pos g (hcats rfl)
    have hypos := hentry y hy
    have hsum : 0 < (class_balance_factors g 1).sum := by
      apply List.sum_pos _ hentry
      unfold class_balance_factors
      intro hmapnil
      rw [List.map_eq_nil_iff] at hmapnil
      exact hg hmapnil
    have hlenpos : (0 : ℚ) < (g.length : ℚ) := by
      have := List.length_pos.mpr hg
      exact_mod_cast this
    exact mul_pos hypos (div_pos hlenpos hsum)

theorem zipWith_mul_pos :
    ∀ (l1 l2 : List ℚ), (∀ x ∈ l1, 0 < x) → (∀ y ∈ l2, 0 < y) →
      ∀ w ∈ List.zipWith (· * ·) l1 l2, 0 < w := by
  intro l1
  induction l1 with
  | nil => intro l2 _ _ w hw; cases hw
  | cons a t ih =>
    intro l2 h1 h2 w hw
    cases l2 with
    | nil => cases hw
    | cons b s =>
      rw [List.zipWith_cons_cons] at hw
      rcases List.mem_cons.mp hw with rfl | hw
      · exact mul_pos (h1 a (List.mem_cons_self a t))
          (h2 b (List.mem_cons_self b s))
      · exact ih s (fun x hx => h1 x (List.mem_cons_of_mem a hx))
          (fun y hy => h2 y (List.mem_cons_of_mem b hy)) w hw

/-- C2 (amended).  For a valid construction (aligned vectors, non-empty
groups, positive ratio entries) the weight vector is strictly positive
*provided* every record of a `use_cas`-enabled dataset carries at least one
category annotation; without that proviso a record with an empty category set
gets class-balance factor 0 and final weight 0
(see `empty_category_record_gets_zero_weight`). -/
theorem weights_positive_when_cas_groups_have_categories
    (sharedSeed rank world_size : ℕ) (groups : List (List Record))
    (ratio : List ℚ) ( use_rfs use_cas : List Bool) (dataset_ann : List String)
    (th : ℚ) (seed : Option ℕ)
    (hlen : groups.length = ratio.length)
    (hrfs : ratio.length ≤ use_rfs.length)
    (hcas : ratio.length ≤ use_cas.length)
    (hann : ratio.length ≤ dataset_ann.length)
    (hne : ratio ≠ [])
    (hgne : ∀ g ∈ groups, g ≠ [])
    (hrpos : ∀ r ∈ ratio, 0 < r)
    (hcatsh : ∀ k, k < groups.length → use_cas.getD k false = true →
      ∀ r ∈ groups.getD k [], r.category_ids ≠ []) :
    ∃ st, MultiDatasetSampler.init sharedSeed rank world_size (tagFrom 0 groups)
        ratio use_rfs use_cas dataset_ann th seed = Except.ok st ∧
      ∀ w ∈ st.weights, 0 < w := by
  refine ⟨_, init_on_groups sharedSeed rank world_size groups ratio use_rfs
    use_cas dataset_ann th seed hlen hrfs hcas hann hne, ?_⟩
  show ∀ w ∈ List.zipWith (· * ·) (datasetWeightVec ratio (groups.map List.length))
    (casBlocks groups use_cas 0), 0 < w
  have hgroupsne : groups ≠ [] := by
    intro hnil
    rw [hnil] at hlen
    cases ratio with
    | nil => exact hne rfl
    | cons a l => simp at hlen
  have hsizepos : ∀ s ∈ groups.map List.length, 0 < s := by
    intro s hs
    rw [List.mem_map] at hs
    obtain ⟨g, hg, rfl⟩ := hs
    exact List.length_pos.mpr (hgne g hg)
  have hmaxpos : 0 < maxSizes (groups.map List.length) := by
    obtain ⟨g0, hg0⟩ : ∃ g0, g0 ∈ groups := by
      cases groups with
      | nil => exact absurd rfl hgroupsne
      | cons g gs => exact ⟨g, List.mem_cons_self g gs⟩
    have h1 : 0 < g0.length := List.length_pos.mpr (hgne g0 hg0)
    have h2 : g0.length ≤ maxSizes (groups.map List.length) :=
      le_maxSizes _ _ (List.mem_map.mpr ⟨g0, hg0, rfl⟩)
    omega
  have hsumpos : 0 < ratio.sum := List.sum_pos ratio hrpos hne
  apply zipWith_mul_pos
  · intro x hx
    obtain ⟨p, hp, rfl⟩ := mem_datasetWeightVec ratio (groups.map List.length) x hx
    have hp1 : p.1 ∈ ratio := (List.of_mem_zip hp).1
    have hp2 : p.2 ∈ groups.map List.length := (List.of_mem_zip hp).2
    unfold dsWeightConst
    have hc1 : (0 : ℚ) < (maxSizes (groups.map List.length) : ℚ) := by
      exact_mod_cast hmaxpos
    have hc2 : (0 : ℚ) < (p.2 : ℚ) := by exact_mod_cast hsizepos p.2 hp2
    exact div_pos (mul_pos (div_pos hc1 hc2) (hrpos p.1 hp1)) hsumpos
  · intro y hy
    obtain ⟨k, hk, hmem⟩ := mem_casBlocks y groups use_cas 0 hy
    have hgk : groups.getD k [] ∈ groups := by
      rw [List.getD_eq_getElem groups [] hk]
      exact List.getElem_mem hk
    refine casBlock_entry_pos (groups.getD k []) (use_cas.getD (0 + k) false)
      (hgne _ hgk) (fun hb => ?_) y hmem
    have h0k : (0 : ℕ) + k = k := by omega
    rw [h0k] at hb
    exact hcatsh k hk hb

/-- Witness for C2 (amended): one single-record dataset with one category,
`use_cas = [true]`. -/
theorem weights_positive_witness :
    ∃ st, MultiDatasetSampler.init 0 0 1
        (tagFrom 0 [[⟨0, 2, 1, [0], [], true⟩]]) [1] [false] [true] ["box"]
        (1/1000) (some 7) = Except.ok st ∧
      ∀ w ∈ st.weights, 0 < w :=
  weights_positive_when_cas_groups_have_categories 0 0 1
    [[⟨0, 2, 1, [0], [], true⟩]] [1] [false] [true] ["box"] (1/1000) (some 7)
    rfl (by simp) (by simp) (by simp) (List.cons_ne_nil 1 [])
    (by intro g hg; rw [List.mem_singleton.mp hg]; exact List.cons_ne_nil _ [])
    (by intro r hr; rw [List.mem_singleton.mp hr]; exact one_pos)
    (by
      intro k hk _ r hr
      simp only [List.length_singleton] at hk
      have hk0 : k = 0 := by omega
      subst hk0
      rw [List.mem_singleton.mp hr]
      exact List.cons_ne_nil 0 [])

end Blueglass
